import Mathlib

/-!
Verification of the `id-map` crate (`src/lib.rs`): a container assigning each
inserted value a small dense integer id.  The Rust struct

  pub struct IdMap<T> { ids: IdSet, values: Vec<Option<T>>, space: Id }

is embedded shallowly: `ids` as a `Finset ℕ` (the `IdSet` collaborator is an
ordered integer set; iteration order is increasing, obtained here by sorting),
`values` as a `List (Option T)`, `space` as a `ℕ`.  Vector indexing
`values[id]` is embedded as `vget` (out-of-bounds reads, which panic in Rust,
yield `none`; all claims are stated on states where accesses are in bounds).
-/

set_option maxHeartbeats 1000000
set_option maxRecDepth 40000

namespace IdMapVerif

/-- Read `values[id]` as an `Option T`: the stored slot when `id` is in
bounds, `none` otherwise. -/
def vget {T : Type} (values : List (Option T)) (id : ℕ) : Option T :=
  values.getD id none

/-- `Vec::resize_with(n, Default::default)`: truncate to `n` when shrinking,
pad with `none` (the default of `Option<T>`) when growing. -/
def resizeWith {T : Type} (values : List (Option T)) (n : ℕ) : List (Option T) :=
  if n ≤ values.length then values.take n
  else values ++ List.replicate (n - values.length) none

/-- The increasing iteration order of the `IdSet` collaborator: its members
as a sorted list.  Implemented as an insertion sort over the underlying
multiset so that concrete instances reduce inside the kernel; it agrees
with `Finset.sort` (`sortIds_eq_sort` below). -/
def sortIds (s : Finset ℕ) : List ℕ :=
  Quotient.liftOn s.1 (fun l => l.insertionSort (· ≤ ·))
    (fun l₁ l₂ h =>
      List.eq_of_perm_of_sorted
        ((l₁.perm_insertionSort (· ≤ ·)).trans
          (List.Perm.trans h (l₂.perm_insertionSort (· ≤ ·)).symm))
        (l₁.sorted_insertionSort (· ≤ ·))
        (l₂.sorted_insertionSort (· ≤ ·)))

/-- The embedded container state, mirroring the three fields of `IdMap<T>`. -/
structure IdMap (T : Type) where
  ids : Finset ℕ
  values : List (Option T)
  space : ℕ

namespace IdMap

variable {T : Type}

/-- `IdMap::new()`. -/
def new (T : Type) : IdMap T := ⟨∅, [], 0⟩

/-- `IdMap::next_id()`: returns `self.space`. -/
def next_id (m : IdMap T) : ℕ := m.space

/-- The loop of `IdMap::find_space` with explicit fuel: starting at `k`,
increment while the id is contained in `ids`. -/
def findSpaceAux (ids : Finset ℕ) : ℕ → ℕ → ℕ
  | 0, k => k
  | fuel + 1, k => if k ∈ ids then findSpaceAux ids fuel (k + 1) else k

/-- The loop of `IdMap::find_space`: the first id `≥ k` not in `ids`.  The
loop checks at most `ids.card + 1` consecutive ids before finding a gap
(`findSpaceFrom_spec`), so this fuel never runs out. -/
def findSpaceFrom (ids : Finset ℕ) (k : ℕ) : ℕ :=
  findSpaceAux ids (ids.card + 1) k

/-- `IdMap::insert(val)`: place `val` at `space`, growing the vector by one
slot when `space` equals its length, mark `space` occupied, rescan for the
next space, and return the id.  Returns the new state and the returned id. -/
def insert (m : IdMap T) (val : T) : IdMap T × ℕ :=
  let id := m.space
  let values :=
    if id = m.values.length then resizeWith m.values (id + 1) else m.values
  let values := values.set id (some val)
  let ids := Insert.insert id m.ids
  (⟨ids, values, findSpaceFrom ids (id + 1)⟩, id)

/-- `IdMap::insert_at(id, val)`: on a fresh id, occupy it, rescan the space
when `id` was the cached space, grow the vector when needed, store the value
and return `none`; on an occupied id, replace the stored value in place and
return the old one. -/
def insert_at (m : IdMap T) (id : ℕ) (val : T) : IdMap T × Option T :=
  if id ∉ m.ids then
    let ids := Insert.insert id m.ids
    let space := if id = m.space then findSpaceFrom ids (m.space + 1) else m.space
    let values :=
      if m.values.length < id + 1 then resizeWith m.values (id + 1) else m.values
    (⟨ids, values.set id (some val), space⟩, none)
  else
    (⟨m.ids, m.values.set id (some val), m.space⟩, vget m.values id)

/-- `IdMap::remove(id)`: when occupied, unmark it, lower `space` to
`min(space, id)` and take the value out of its slot; otherwise do nothing
and return `none`. -/
def remove (m : IdMap T) (id : ℕ) : IdMap T × Option T :=
  if id ∈ m.ids then
    (⟨m.ids.erase id, m.values.set id none, min m.space id⟩, vget m.values id)
  else
    (m, none)

/-- `IdMap::get_or_insert_with(id, f)`: when the id is fresh, behaves like
`insert_at` with `f ()`; the returned option models the `&mut T` reference
(`none` would be the unreachable unwrap panic). -/
def get_or_insert_with (m : IdMap T) (id : ℕ) (f : Unit → T) : IdMap T × Option T :=
  if id ∉ m.ids then
    let ids := Insert.insert id m.ids
    let space := if id = m.space then findSpaceFrom ids (m.space + 1) else m.space
    let values :=
      if m.values.length < id + 1 then resizeWith m.values (id + 1) else m.values
    (⟨ids, values.set id (some (f ())), space⟩, some (f ()))
  else
    (m, vget m.values id)

/-- `IdMap::get_or_insert(id, val)`: delegates to `get_or_insert_with`. -/
def get_or_insert (m : IdMap T) (id : ℕ) (val : T) : IdMap T × Option T :=
  get_or_insert_with m id (fun _ => val)

/-- `IdMap::get(id)`: `Some(&values[id])` when occupied, `None` otherwise. -/
def get (m : IdMap T) (id : ℕ) : Option T :=
  if id ∈ m.ids then vget m.values id else none

/-- `IdMap::get_mut(id)`: same occupancy test as `get`. -/
def get_mut (m : IdMap T) (id : ℕ) : Option T :=
  if id ∈ m.ids then vget m.values id else none

/-- `IdMap::contains(id)`. -/
def contains (m : IdMap T) (id : ℕ) : Bool :=
  decide (id ∈ m.ids)

/-- `IdMap::remove_set(set)`: walk the intersection of `ids` with `set` in
increasing order; on the first element lower `space` once, clear every
intersected slot, then replace `ids` by the set difference. -/
def remove_set (m : IdMap T) (s : Finset ℕ) : IdMap T :=
  match sortIds (m.ids ∩ s) with
  | [] => ⟨m.ids \ s, m.values, m.space⟩
  | first :: rest =>
      ⟨m.ids \ s,
       ((first :: rest).foldl (fun vs id => vs.set id none) m.values),
       min m.space first⟩

/-- One step of `IdMap::retain`'s closure at id `id`: keep the id when the
predicate holds of the stored value, otherwise lower `space`, clear the slot
and drop the id.  (The `unwrap` of the stored value is total on valid
states; an empty slot leaves the state unchanged here where Rust panics.) -/
def retainStep (pred : ℕ → T → Bool) (acc : IdMap T) (id : ℕ) : IdMap T :=
  match vget acc.values id with
  | none => acc
  | some v =>
      if pred id v then acc
      else ⟨acc.ids.erase id, acc.values.set id none, min acc.space id⟩

/-- `IdMap::retain(pred)`: apply the closure to every occupied id in
increasing order. -/
def retain (m : IdMap T) (pred : ℕ → T → Bool) : IdMap T :=
  (sortIds m.ids).foldl (retainStep pred) m

/-- `IdMap::drop_values` followed by `ids.clear()`, i.e. `IdMap::clear()`:
every occupied slot is reset to `none` and the id set is emptied; the
`space` field is left untouched. -/
def clear (m : IdMap T) : IdMap T :=
  ⟨∅, (sortIds m.ids).foldl (fun vs id => vs.set id none) m.values, m.space⟩

/-- The storage bound: one more than the largest occupied id, `0` when the
map is empty. -/
def storageBound (ids : Finset ℕ) : ℕ :=
  if h : ids.Nonempty then ids.max' h + 1 else 0

/-- Modelled from the spec: `IdMap::shrink_to_fit` truncates `values` to the
capacity of `ids` after the id set shrank; the `IdSet` collaborator is not
part of this repository's sources, and the spec describes the result as
"the minimum needed for current occupancy's bound", i.e. the storage
bound. -/
def shrink_to_fit (m : IdMap T) : IdMap T :=
  ⟨m.ids, m.values.take (storageBound m.ids), m.space⟩

/-- The `Ids` / `Values` / `Iter` traversal order: occupied ids increasing. -/
def idList (m : IdMap T) : List ℕ := sortIds m.ids

/-- The `Values` iterator run to exhaustion: each id in increasing order is
mapped to its unwrapped slot (the unwrap is total on valid states, where
every occupied slot is `some`). -/
def valuesList (m : IdMap T) : List T :=
  (sortIds m.ids).filterMap (fun id => vget m.values id)

/-- The `Iter` iterator run to exhaustion: ids paired with their slots. -/
def iterList (m : IdMap T) : List (ℕ × T) :=
  (sortIds m.ids).filterMap (fun id => (vget m.values id).map (fun v => (id, v)))

/-- A full run of `ValuesMut` (`ValuesMut::next` iterated to exhaustion).
`ids` is the remaining id iterator, `prev` the `prev` field, `values` the
remaining slot iterator (`slice::IterMut`).  Each step computes
`n = id - prev - 1` (`0` when `prev` is `None`), advances the slot iterator
with `nth(n)` and unwraps; a `none` result models a panic of either the
`nth(n).unwrap()` or the `as_mut().unwrap()`. -/
def valuesMutRun {T : Type} : List ℕ → Option ℕ → List (Option T) → Option (List T)
  | [], _, _ => some []
  | id :: rest, prev, values =>
    let n : ℕ :=
      match prev with
      | some p => id - p - 1
      | none => 0
    match values.drop n with
    | [] => none
    | slot :: values' =>
      match slot with
      | none => none
      | some v => (valuesMutRun rest (some id) values').map (fun l => v :: l)

/-- A full run of `IterMut` (`IterMut::next` iterated to exhaustion); the
same slot-skipping state machine as `ValuesMut`, yielding id-value pairs. -/
def iterMutRun {T : Type} : List ℕ → Option ℕ → List (Option T) → Option (List (ℕ × T))
  | [], _, _ => some []
  | id :: rest, prev, values =>
    let n : ℕ :=
      match prev with
      | some p => id - p - 1
      | none => 0
    match values.drop n with
    | [] => none
    | slot :: values' =>
      match slot with
      | none => none
      | some v => (iterMutRun rest (some id) values').map (fun l => (id, v) :: l)

/-- A full run of `IntoIter` (`IntoIter::next` iterated to exhaustion); the
same slot-skipping state machine over the owned `vec::IntoIter`. -/
def intoIterRun {T : Type} : List ℕ → Option ℕ → List (Option T) → Option (List (ℕ × T))
  | [], _, _ => some []
  | id :: rest, prev, values =>
    let n : ℕ :=
      match prev with
      | some p => id - p - 1
      | none => 0
    match values.drop n with
    | [] => none
    | slot :: values' =>
      match slot with
      | none => none
      | some v => (intoIterRun rest (some id) values').map (fun l => (id, v) :: l)

/-- `IdMap::values_mut()` run to exhaustion. -/
def values_mut (m : IdMap T) : Option (List T) :=
  valuesMutRun (sortIds m.ids) none m.values

/-- `IdMap::iter_mut()` run to exhaustion. -/
def iter_mut (m : IdMap T) : Option (List (ℕ × T)) :=
  iterMutRun (sortIds m.ids) none m.values

/-- `IdMap::into_iter()` run to exhaustion. -/
def into_iter (m : IdMap T) : Option (List (ℕ × T)) :=
  intoIterRun (sortIds m.ids) none m.values

/-- The invariant of `IdMap::assert_invariant` (`lib.rs`, lines 298-309) and
spec §3: the ids below `space` are occupied, `space` itself is not, and
every occupied id is within the storage bound. -/
def Invariant (m : IdMap T) : Prop :=
  (∀ i < m.space, i ∈ m.ids) ∧ m.space ∉ m.ids ∧ ∀ id ∈ m.ids, id < m.values.length

instance (m : IdMap T) : Decidable (Invariant m) := by
  unfold Invariant; infer_instance

/-- One public mutating operation, as listed in spec §4.1. -/
inductive Op (T : Type) where
  | insertOp (v : T)
  | insertAtOp (id : ℕ) (v : T)
  | removeOp (id : ℕ)
  | removeSetOp (s : Finset ℕ)
  | retainOp (p : ℕ → T → Bool)
  | getOrInsertOp (id : ℕ) (v : T)
  | getOrInsertWithOp (id : ℕ) (f : Unit → T)
  | clearOp
  | shrinkOp

/-- The state transition of one public mutating operation. -/
def applyOp (m : IdMap T) : Op T → IdMap T
  | .insertOp v => (m.insert v).1
  | .insertAtOp id v => (m.insert_at id v).1
  | .removeOp id => (m.remove id).1
  | .removeSetOp s => m.remove_set s
  | .retainOp p => m.retain p
  | .getOrInsertOp id v => (m.get_or_insert id v).1
  | .getOrInsertWithOp id f => (m.get_or_insert_with id f).1
  | .clearOp => m.clear
  | .shrinkOp => m.shrink_to_fit

/-- A state is reachable when some sequence of public mutating operations
produces it from the freshly created container. -/
def Reachable (m : IdMap T) : Prop :=
  ∃ ops : List (Op T), ops.foldl applyOp (new T) = m

/-- Iterated plain insertion of a list of values; records, for each
insertion, the value `next_id()` reported just before it together with the
id that `insert` returned. -/
def insertAllTrace : IdMap T → List T → IdMap T × List (ℕ × ℕ)
  | m, [] => (m, [])
  | m, v :: rest =>
      let r := m.insert v
      let rr := insertAllTrace r.1 rest
      (rr.1, (m.next_id, r.2) :: rr.2)

/-- The message of the assertion guarding `Index`/`IndexMut` for `IdMap`:
`"id {} out of bounds"` formatted with the offending id. -/
def panicMsg (id : ℕ) : String :=
  "id " ++ toString id ++ " out of bounds"

/-- `Index for IdMap`: `map[id]`.  A failed occupancy assertion is the
`.error` carrying the panic message; the inner `unwrap` (total on valid
states) is the anonymous `.error`. -/
def index (m : IdMap T) (id : ℕ) : Except String T :=
  if id ∈ m.ids then
    match vget m.values id with
    | some v => Except.ok v
    | none => Except.error "called Option::unwrap on a None value"
  else Except.error (panicMsg id)

/-- `IndexMut for IdMap`: `map[id] = v`, modelled as the write it enables;
the same occupancy assertion guards it. -/
def index_mut (m : IdMap T) (id : ℕ) (v : T) : Except String (IdMap T) :=
  if id ∈ m.ids then
    Except.ok ⟨m.ids, m.values.set id (some v), m.space⟩
  else Except.error (panicMsg id)

/-- `PartialEq for IdMap`: the id sets are compared, then the two id
iterations are zipped and the stored values compared pairwise (the slot
`unwrap`s are total on valid states). -/
def mapEq [DecidableEq T] (a b : IdMap T) : Bool :=
  decide (a.ids = b.ids) &&
    ((sortIds a.ids).zip (sortIds b.ids)).all
      (fun p => vget a.values p.1 == vget b.values p.2)

end IdMap

/-! ### Helper lemmas about slot reads and writes -/

theorem vget_nil {T : Type} (id : ℕ) : vget ([] : List (Option T)) id = none := by
  simp [vget]

theorem vget_cons_zero {T : Type} (a : Option T) (l : List (Option T)) :
    vget (a :: l) 0 = a := by
  simp [vget]

theorem vget_cons_succ {T : Type} (a : Option T) (l : List (Option T)) (n : ℕ) :
    vget (a :: l) (n + 1) = vget l n := by
  simp [vget]

theorem vget_of_le {T : Type} :
    ∀ {values : List (Option T)} {id : ℕ}, values.length ≤ id → vget values id = none
  | [], _, _ => vget_nil _
  | _ :: l, id + 1, h => by
      rw [vget_cons_succ]
      exact vget_of_le (by simpa using h)

theorem vget_set_lt {T : Type} :
    ∀ (values : List (Option T)) (id : ℕ) (v : Option T), id < values.length →
      vget (values.set id v) id = v
  | _ :: _, 0, v, _ => by rw [List.set_cons_zero, vget_cons_zero]
  | a :: l, id + 1, v, h => by
      rw [List.set_cons_succ, vget_cons_succ]
      exact vget_set_lt l id v (by simpa using h)

theorem vget_set_none {T : Type} :
    ∀ (values : List (Option T)) (id : ℕ), vget (values.set id none) id = none
  | [], id => vget_nil id
  | _ :: _, 0 => by rw [List.set_cons_zero, vget_cons_zero]
  | a :: l, id + 1 => by
      rw [List.set_cons_succ, vget_cons_succ]
      exact vget_set_none l id

theorem vget_set_ne {T : Type} :
    ∀ (values : List (Option T)) (i j : ℕ) (v : Option T), i ≠ j →
      vget (values.set i v) j = vget values j
  | [], _, _, _, _ => rfl
  | _ :: _, 0, 0, _, h => absurd rfl h
  | _ :: _, 0, j + 1, v, _ => by rw [List.set_cons_zero, vget_cons_succ, vget_cons_succ]
  | _ :: _, i + 1, 0, v, _ => by rw [List.set_cons_succ, vget_cons_zero, vget_cons_zero]
  | a :: l, i + 1, j + 1, v, h => by
      rw [List.set_cons_succ, vget_cons_succ, vget_cons_succ]
      exact vget_set_ne l i j v (fun hc => h (by rw [hc]))

theorem length_foldl_set {T : Type} :
    ∀ (l : List ℕ) (vs : List (Option T)),
      (l.foldl (fun a i => a.set i none) vs).length = vs.length
  | [], _ => rfl
  | i :: l, vs => by
      rw [List.foldl_cons, length_foldl_set l, List.length_set]

theorem vget_foldl_set_none {T : Type} :
    ∀ (l : List ℕ) (vs : List (Option T)) (id : ℕ),
      vget (l.foldl (fun a i => a.set i none) vs) id =
        if id ∈ l then none else vget vs id
  | [], vs, id => by simp
  | i :: l, vs, id => by
      rw [List.foldl_cons, vget_foldl_set_none l]
      by_cases hil : id ∈ l
      · simp [hil]
      · by_cases hii : id = i
        · subst hii
          simp [hil, vget_set_none]
        · simp [hil, hii, vget_set_ne vs i id none (fun hc => hii hc.symm)]

theorem vget_map_some {T : Type} :
    ∀ (l : List T) (i : ℕ) (h : i < l.length),
      vget (l.map some) i = some (l.get ⟨i, h⟩)
  | a :: l, 0, _ => by rw [List.map_cons, vget_cons_zero]; rfl
  | a :: l, i + 1, h => by
      rw [List.map_cons, vget_cons_succ]
      exact vget_map_some l i (by simpa using h)

theorem set_append_len {T : Type} :
    ∀ (l : List (Option T)) (a b : Option T), (l ++ [a]).set l.length b = l ++ [b]
  | [], _, _ => rfl
  | x :: l, a, b => by
      rw [List.cons_append, List.length_cons, List.set_cons_succ, set_append_len l a b,
        List.cons_append]

theorem resizeWith_grow {T : Type} {values : List (Option T)} {n : ℕ}
    (h : values.length < n) :
    resizeWith values n = values ++ List.replicate (n - values.length) none := by
  rw [resizeWith, if_neg (by omega)]

theorem vget_replicate_none {T : Type} :
    ∀ (r j : ℕ), vget (List.replicate r (none : Option T)) j = none
  | 0, j => vget_nil j
  | _ + 1, 0 => vget_cons_zero _ _
  | r + 1, j + 1 => by
      rw [List.replicate_succ, vget_cons_succ]
      exact vget_replicate_none r j

theorem vget_append_replicate {T : Type} :
    ∀ (values : List (Option T)) (r j : ℕ),
      vget (values ++ List.replicate r none) j = vget values j
  | [], r, j => by
      rw [List.nil_append, vget_nil]
      exact vget_replicate_none r j
  | a :: l, r, 0 => by rw [List.cons_append, vget_cons_zero, vget_cons_zero]
  | a :: l, r, j + 1 => by
      rw [List.cons_append, vget_cons_succ, vget_cons_succ]
      exact vget_append_replicate l r j

theorem zip_self {α : Type} : ∀ l : List α, l.zip l = l.map (fun x => (x, x))
  | [] => rfl
  | a :: l => by rw [List.zip_cons_cons, zip_self l, List.map_cons]

/-! ### The iteration order -/

theorem sortIds_coe (s : Finset ℕ) : (↑(sortIds s) : Multiset ℕ) = s.1 := by
  rcases s with ⟨val, nodup⟩
  induction val using Quotient.inductionOn with
  | h l => exact Quotient.sound (l.perm_insertionSort (· ≤ ·))

theorem sortIds_sorted (s : Finset ℕ) : List.Sorted (· ≤ ·) (sortIds s) := by
  rcases s with ⟨val, nodup⟩
  induction val using Quotient.inductionOn with
  | h l => exact l.sorted_insertionSort (· ≤ ·)

theorem sortIds_eq_sort (s : Finset ℕ) : sortIds s = s.sort (· ≤ ·) := by
  refine List.eq_of_perm_of_sorted ?_ (sortIds_sorted s) (Finset.sort_sorted _ s)
  refine Multiset.coe_eq_coe.mp ?_
  rw [sortIds_coe]
  exact (Finset.sort_eq (· ≤ ·) s).symm

theorem mem_sortIds {s : Finset ℕ} {a : ℕ} : a ∈ sortIds s ↔ a ∈ s := by
  rw [sortIds_eq_sort]
  exact Finset.mem_sort _

theorem sortIds_eq_nil {s : Finset ℕ} (h : sortIds s = []) : s = ∅ := by
  apply Finset.eq_empty_of_forall_not_mem
  intro a ha
  have hm := mem_sortIds.mpr ha
  rw [h] at hm
  exact absurd hm (List.not_mem_nil a)

/-- The head of the sorted member list is the minimum of the set. -/
theorem sortIds_head_min {s : Finset ℕ} {first : ℕ} {rest : List ℕ}
    (h : sortIds s = first :: rest) :
    ∃ hne : s.Nonempty, first = s.min' hne := by
  have hfs : first ∈ s := mem_sortIds.mp (h ▸ List.mem_cons_self first rest)
  have hne : s.Nonempty := ⟨first, hfs⟩
  refine ⟨hne, ?_⟩
  have hsorted : List.Sorted (· ≤ ·) (first :: rest) := h ▸ sortIds_sorted s
  have hmem : s.min' hne ∈ first :: rest := h ▸ mem_sortIds.mpr (s.min'_mem hne)
  have h1 : s.min' hne ≤ first := s.min'_le first hfs
  have h2 : first ≤ s.min' hne := by
    rcases List.mem_cons.mp hmem with he | hm
    · omega
    · exact (List.sorted_cons.mp hsorted).1 _ hm
  omega

/-! ### Lemmas about the free-space scan -/

namespace IdMap

variable {T : Type}

theorem findSpaceAux_spec (ids : Finset ℕ) :
    ∀ (fuel k : ℕ), (∃ j, k ≤ j ∧ j ≤ k + fuel ∧ j ∉ ids) →
      findSpaceAux ids fuel k ∉ ids ∧ k ≤ findSpaceAux ids fuel k ∧
        ∀ i, k ≤ i → i < findSpaceAux ids fuel k → i ∈ ids
  | 0, k, ⟨j, hkj, hjk, hj⟩ => by
      have hjk2 : j = k := by omega
      exact ⟨hjk2 ▸ hj, le_refl k,
        fun i h1 h2 => absurd (lt_of_le_of_lt h1 h2) (lt_irrefl k)⟩
  | fuel + 1, k, ⟨j, hkj, hjk, hj⟩ => by
      rw [findSpaceAux]
      by_cases h : k ∈ ids
      · rw [if_pos h]
        have hjne : j ≠ k := fun hc => hj (hc ▸ h)
        have IH := findSpaceAux_spec ids fuel (k + 1) ⟨j, by omega, by omega, hj⟩
        refine ⟨IH.1, by omega, ?_⟩
        intro i h1 h2
        rcases Nat.eq_or_lt_of_le h1 with rfl | h3
        · exact h
        · exact IH.2.2 i h3 h2
      · rw [if_neg h]
        exact ⟨h, le_refl k, fun i h1 h2 => absurd (lt_of_le_of_lt h1 h2) (lt_irrefl k)⟩

/-- Within `ids.card + 1` consecutive ids starting anywhere there is always
one outside `ids`. -/
theorem exists_gap (ids : Finset ℕ) (k : ℕ) :
    ∃ j, k ≤ j ∧ j ≤ k + ids.card ∧ j ∉ ids := by
  by_contra hc
  push_neg at hc
  have hsub : Finset.Icc k (k + ids.card) ⊆ ids := by
    intro j hj
    rw [Finset.mem_Icc] at hj
    exact hc j hj.1 hj.2
  have := Finset.card_le_card hsub
  rw [Nat.card_Icc] at this
  omega

/-- Characterisation of the `find_space` scan: the result is not in `ids`,
is at least the start, and every id from the start up to it is in `ids`. -/
theorem findSpaceFrom_spec (ids : Finset ℕ) (k : ℕ) :
    findSpaceFrom ids k ∉ ids ∧ k ≤ findSpaceFrom ids k ∧
      ∀ i, k ≤ i → i < findSpaceFrom ids k → i ∈ ids := by
  refine findSpaceAux_spec ids (ids.card + 1) k ?_
  obtain ⟨j, h1, h2, h3⟩ := exists_gap ids k
  exact ⟨j, h1, by omega, h3⟩

theorem findSpaceFrom_not_mem {ids : Finset ℕ} {k : ℕ} (h : k ∉ ids) :
    findSpaceFrom ids k = k := by
  rw [findSpaceFrom, findSpaceAux, if_neg h]

/-! ### The state of a fresh map after a run of plain insertions -/

/-- One plain insertion into the fully packed state `{0..n-1}`: the value
lands at id `n` and the state stays fully packed. -/
theorem insert_full (ws : List T) (v : T) :
    insert ⟨Finset.range ws.length, ws.map some, ws.length⟩ v
      = (⟨Finset.range (ws.length + 1), (ws ++ [v]).map some, ws.length + 1⟩,
         ws.length) := by
  have hgrow : resizeWith (ws.map some) (ws.length + 1) = ws.map some ++ [none] := by
    rw [resizeWith_grow (by simp)]
    simp
  have hval : (ws.map some ++ [(none : Option T)]).set ws.length (some v)
      = (ws ++ [v]).map some := by
    have h := set_append_len (ws.map some) (none : Option T) (some v)
    rw [List.length_map] at h
    rw [h, List.map_append]
    rfl
  have hids : (Insert.insert ws.length (Finset.range ws.length))
      = Finset.range (ws.length + 1) := (Finset.range_succ).symm
  have hsp : findSpaceFrom (Finset.range (ws.length + 1)) (ws.length + 1)
      = ws.length + 1 := findSpaceFrom_not_mem (by simp)
  simp only [insert, List.length_map, if_pos, hgrow, hval, hids, hsp]

/-- Running `insertAllTrace` from the fully packed state `{0..k-1}`: the
values are appended in order at ids `k, k+1, …`, each insertion returning
the id equal to the `next_id()` sampled before it. -/
theorem insertAllTrace_full (vals : List T) :
    ∀ ws : List T,
      insertAllTrace ⟨Finset.range ws.length, ws.map some, ws.length⟩ vals
        = (⟨Finset.range (ws.length + vals.length), (ws ++ vals).map some,
            ws.length + vals.length⟩,
           (List.range' ws.length vals.length).map (fun j => (j, j))) := by
  induction vals with
  | nil =>
      intro ws
      simp [insertAllTrace]
  | cons v rest ih =>
      intro ws
      have hstep := insert_full ws v
      have htail := ih (ws ++ [v])
      simp only [List.length_append, List.length_cons, List.length_nil,
        Nat.zero_add] at htail
      rw [insertAllTrace]
      simp only [hstep, next_id]
      rw [htail]
      have harith : ws.length + 1 + rest.length = ws.length + (rest.length + 1) := by
        omega
      rw [harith, List.append_assoc, List.singleton_append]
      simp only [List.length_cons, List.range'_succ, List.map_cons]

/-- Running `insertAllTrace` on the freshly created map. -/
theorem insertAllTrace_new (vals : List T) :
    insertAllTrace (new T) vals
      = (⟨Finset.range vals.length, vals.map some, vals.length⟩,
         (List.range vals.length).map (fun j => (j, j))) := by
  have h := insertAllTrace_full vals []
  simp only [List.length_nil, List.nil_append, List.map_nil, Nat.zero_add] at h
  rw [show (new T) = ⟨Finset.range 0, [], 0⟩ by simp [new], h,
    List.range_eq_range']

/-! ### The claims -/

/-- C1: claimed gap computation of the mutable/consuming iterators.  The
code computes gap `0` before the first yield instead of `current_id`: on
the reachable container `{1 ↦ 42}` (insert 10, insert 42, remove 0) the
first step of `values_mut`, `iter_mut` and `into_iter` reads the absent
slot `0` and panics (modelled as `none`), although id `1` holds `42` — so
the yielded element is not the value stored at the occupied identifier. -/
theorem iter_first_gap_bug :
    Reachable ((remove (insert (insert (new ℕ) 10).1 42).1 0).1) ∧
      sortIds ((remove (insert (insert (new ℕ) 10).1 42).1 0).1).ids = [1] ∧
      get ((remove (insert (insert (new ℕ) 10).1 42).1 0).1) 1 = some 42 ∧
      values_mut ((remove (insert (insert (new ℕ) 10).1 42).1 0).1) = none ∧
      iter_mut ((remove (insert (insert (new ℕ) 10).1 42).1 0).1) = none ∧
      into_iter ((remove (insert (insert (new ℕ) 10).1 42).1 0).1) = none :=
  ⟨⟨[Op.insertOp 10, Op.insertOp 42, Op.removeOp 0], rfl⟩, by decide⟩

/-- C2: the invariant of spec §8 (and of `assert_invariant`) fails on the
reachable state `insert 0; clear()`: `clear` leaves the cursor at `1` while
id `0` is unoccupied. -/
theorem clear_breaks_invariant :
    Reachable (clear (insert (new ℕ) 0).1) ∧
      ¬ Invariant (clear (insert (new ℕ) 0).1) :=
  ⟨⟨[Op.insertOp 0, Op.clearOp], rfl⟩, by decide⟩

/-- C3: inserting a sequence of values via plain `insert` into a fresh
container, the i-th insertion returns id `i` equal to the `next_id()`
reported immediately before it, and reading each returned id back with
`get` or with indexing yields the i-th inserted value. -/
theorem insert_round_trip (vals : List ℕ) :
    (insertAllTrace (new ℕ) vals).2
        = (List.range vals.length).map (fun j => (j, j)) ∧
      ∀ i, ∀ h : i < vals.length,
        get (insertAllTrace (new ℕ) vals).1 i = some (vals.get ⟨i, h⟩) ∧
        index (insertAllTrace (new ℕ) vals).1 i = Except.ok (vals.get ⟨i, h⟩) := by
  rw [insertAllTrace_new]
  refine ⟨rfl, ?_⟩
  intro i h
  have hmem : i ∈ Finset.range vals.length := Finset.mem_range.mpr h
  have hv := vget_map_some vals i h
  constructor
  · simp [get, hmem, hv]
  · simp [index, hmem, hv]

/-- Witness for C3 at `vals = [5, 7]`, `i = 1`. -/
theorem insert_round_trip_witness :
    1 < 2 ∧ get (insertAllTrace (new ℕ) [5, 7]).1 1 = some 7 :=
  ⟨by decide, ((insert_round_trip [5, 7]).2 1 (by decide)).1⟩

/-- C4 counterexample: in the container `{5 ↦ 42}` (reachable via a single
`insert_at`), the smallest occupied id is `5`, yet after `remove 5` the
next plain `insert` returns `0`, not `5`. -/
theorem remove_smallest_counterexample :
    Reachable ((insert_at (new ℕ) 5 42).1) ∧
      (5 ∈ ((insert_at (new ℕ) 5 42).1).ids ∧
        ∀ j ∈ ((insert_at (new ℕ) 5 42).1).ids, 5 ≤ j) ∧
      (insert (remove (insert_at (new ℕ) 5 42).1 5).1 7).2 = 0 ∧
      (insert (remove (insert_at (new ℕ) 5 42).1 5).1 7).2 ≠ 5 :=
  ⟨⟨[Op.insertAtOp 5 42], rfl⟩, by decide⟩

/-- C4 amended: after removing an occupied id `k`, the next plain `insert`
returns `min(free_cursor, k)`; in particular it returns `k` whenever
`k ≤ free_cursor`, which holds for the smallest occupied id whenever id `0`
is occupied. -/
theorem remove_insert_returns_min (m : IdMap ℕ) (k v : ℕ) (hk : k ∈ m.ids) :
    (insert (remove m k).1 v).2 = min m.space k ∧
      (k ≤ m.space → (insert (remove m k).1 v).2 = k) := by
  constructor
  · simp [remove, hk, insert]
  · intro hle
    simp [remove, hk, insert]
    omega

/-- Witness for C4 (amended) on `{0 ↦ 3, 1 ↦ 4}` with `k = 0`. -/
theorem remove_insert_returns_min_witness :
    (0 : ℕ) ∈ (insertAllTrace (new ℕ) [3, 4]).1.ids ∧
      (insert (remove (insertAllTrace (new ℕ) [3, 4]).1 0).1 9).2 = 0 :=
  ⟨by decide,
    (remove_insert_returns_min (insertAllTrace (new ℕ) [3, 4]).1 0 9
        (by decide)).2 (by decide)⟩

/-- C10: `clear` empties the occupancy set and clears every occupied slot,
but leaves the cursor field unchanged: `next_id()` after `clear` equals
`next_id()` before, and the next plain `insert` returns exactly it. -/
theorem clear_keeps_cursor (m : IdMap ℕ) (v : ℕ) :
    (clear m).ids = ∅ ∧
      (∀ id ∈ m.ids, vget (clear m).values id = none) ∧
      (clear m).space = m.space ∧
      next_id (clear m) = next_id m ∧
      (insert (clear m) v).2 = next_id m := by
  refine ⟨rfl, ?_, rfl, rfl, rfl⟩
  intro id hid
  show vget ((sortIds m.ids).foldl (fun vs id => vs.set id none) m.values) id = none
  rw [vget_foldl_set_none]
  simp [mem_sortIds.mpr hid]

/-- Witness for C10 on `{0 ↦ 5}` whose pre-clear `next_id()` is `1`. -/
theorem clear_keeps_cursor_witness :
    (0 : ℕ) ∈ (insert (new ℕ) 5).1.ids ∧
      vget (clear (insert (new ℕ) 5).1).values 0 = none ∧
      (insert (clear (insert (new ℕ) 5).1) 7).2 = 1 :=
  ⟨by decide, (clear_keeps_cursor (insert (new ℕ) 5).1 7).2.1 0 (by decide),
    (clear_keeps_cursor (insert (new ℕ) 5).1 7).2.2.2.2⟩

/-- C7: `remove` on an occupied id unmarks its occupancy, lowers the cursor
to `min(space, id)`, returns the stored value and leaves the slot logically
empty (other slots untouched); on an unoccupied id it returns `none` and
leaves the whole state unchanged. -/
theorem remove_spec (m : IdMap ℕ) (id : ℕ) :
    (id ∈ m.ids →
      (remove m id).1.ids = m.ids.erase id ∧
      (remove m id).1.space = min m.space id ∧
      (remove m id).2 = vget m.values id ∧
      vget (remove m id).1.values id = none ∧
      ∀ j, j ≠ id → vget (remove m id).1.values j = vget m.values j) ∧
    (id ∉ m.ids → (remove m id).1 = m ∧ (remove m id).2 = none) := by
  constructor
  · intro h
    simp only [remove, if_pos h]
    exact ⟨trivial, trivial, trivial, vget_set_none _ _,
      fun j hj => vget_set_ne _ _ _ _ (fun hc => hj hc.symm)⟩
  · intro h
    simp [remove, h]

/-- Witness for C7 on `{0 ↦ 4}` with occupied id `0` and absent id `7`. -/
theorem remove_spec_witness :
    ((0 : ℕ) ∈ (insert (new ℕ) 4).1.ids ∧
        (remove (insert (new ℕ) 4).1 0).2 = some 4) ∧
      ((7 : ℕ) ∉ (insert (new ℕ) 4).1.ids ∧
        (remove (insert (new ℕ) 4).1 7).2 = none) :=
  ⟨⟨by decide, ((remove_spec (insert (new ℕ) 4).1 0).1 (by decide)).2.2.1⟩,
    ⟨by decide, ((remove_spec (insert (new ℕ) 4).1 7).2 (by decide)).2⟩⟩

/-- C6: `insert_at` on an occupied id replaces the stored value in place
(occupancy, cursor and storage length unchanged) and returns the old value;
on a fresh id it marks the id occupied, stores the value (growing storage
exactly to `id + 1` when it was beyond the bound), keeps the cursor when
`id` differs from it, re-derives it by the space scan when `id` equals it,
returns `none`, and in all cases preserves the free-cursor invariant. -/
theorem insert_at_spec (m : IdMap ℕ) (id v : ℕ) :
    ((insert_at m id v).2 = if id ∈ m.ids then vget m.values id else none) ∧
    (id ∈ m.ids →
      (insert_at m id v).1.ids = m.ids ∧
      (insert_at m id v).1.space = m.space ∧
      (insert_at m id v).1.values.length = m.values.length ∧
      (id < m.values.length → vget (insert_at m id v).1.values id = some v) ∧
      ∀ j, j ≠ id → vget (insert_at m id v).1.values j = vget m.values j) ∧
    (id ∉ m.ids →
      (insert_at m id v).1.ids = Insert.insert id m.ids ∧
      vget (insert_at m id v).1.values id = some v ∧
      (∀ j, j ≠ id → vget (insert_at m id v).1.values j = vget m.values j) ∧
      (insert_at m id v).1.values.length = max m.values.length (id + 1) ∧
      (id = m.space →
        (insert_at m id v).1.space
          = findSpaceFrom (Insert.insert id m.ids) (m.space + 1)) ∧
      (id ≠ m.space → (insert_at m id v).1.space = m.space)) ∧
    (Invariant m → Invariant (insert_at m id v).1) := by
  by_cases h : id ∈ m.ids
  · simp only [insert_at, if_neg (not_not_intro h)]
    refine ⟨by rw [if_pos h], ?_, fun hc => absurd h hc, ?_⟩
    · intro _
      exact ⟨trivial, trivial, List.length_set _ _ _, fun hlt => vget_set_lt _ _ _ hlt,
        fun j hj => vget_set_ne _ _ _ _ (fun hc => hj hc.symm)⟩
    · rintro ⟨i1, i2, i3⟩
      refine ⟨i1, i2, ?_⟩
      intro j hj
      rw [List.length_set]
      exact i3 j hj
  · simp only [insert_at, if_pos h]
    have hlen2 :
        (if m.values.length < id + 1 then resizeWith m.values (id + 1)
          else m.values).length = max m.values.length (id + 1) := by
      by_cases hl : m.values.length < id + 1
      · rw [if_pos hl, resizeWith_grow hl, List.length_append, List.length_replicate]
        omega
      · rw [if_neg hl]
        omega
    have hstore :
        vget ((if m.values.length < id + 1 then resizeWith m.values (id + 1)
          else m.values).set id (some v)) id = some v := by
      apply vget_set_lt
      rw [hlen2]
      omega
    have hframe : ∀ j, j ≠ id →
        vget ((if m.values.length < id + 1 then resizeWith m.values (id + 1)
          else m.values).set id (some v)) j = vget m.values j := by
      intro j hj
      rw [vget_set_ne _ _ _ _ (fun hc => hj hc.symm)]
      by_cases hl : m.values.length < id + 1
      · rw [if_pos hl, resizeWith_grow hl, vget_append_replicate]
      · rw [if_neg hl]
    refine ⟨by rw [if_neg h], fun hc => absurd hc h,
      ?_, ?_⟩
    · intro _
      refine ⟨trivial, hstore, hframe, by rw [List.length_set, hlen2], ?_, ?_⟩
      · intro hsp
        rw [if_pos hsp]
      · intro hsp
        rw [if_neg hsp]
    · rintro ⟨i1, i2, i3⟩
      have hbound : ∀ j ∈ Insert.insert id m.ids,
          j < ((if m.values.length < id + 1 then resizeWith m.values (id + 1)
            else m.values).set id (some v)).length := by
        intro j hj
        rw [List.length_set, hlen2]
        rcases Finset.mem_insert.mp hj with rfl | hjm
        · omega
        · have := i3 j hjm
          omega
      by_cases hsp : id = m.space
      · obtain ⟨f1, f2, f3⟩ := findSpaceFrom_spec (Insert.insert id m.ids) (m.space + 1)
        refine ⟨?_, ?_, hbound⟩
        · rw [if_pos hsp]
          intro i hi
          rcases Nat.lt_or_ge i (m.space + 1) with hle | hge
          · rcases Nat.lt_or_ge i m.space with hlt | hge2
            · exact Finset.mem_insert_of_mem (i1 i hlt)
            · have hieq : i = id := by omega
              rw [hieq]
              exact Finset.mem_insert_self _ _
          · exact f3 i hge hi
        · rw [if_pos hsp]
          exact f1
      · refine ⟨?_, ?_, hbound⟩
        · rw [if_neg hsp]
          intro i hi
          exact Finset.mem_insert_of_mem (i1 i hi)
        · rw [if_neg hsp]
          intro hc
          rcases Finset.mem_insert.mp hc with he | hm
          · exact hsp he.symm
          · exact i2 hm

/-- Witness for C6 on `{0 ↦ 4}`: replacing at occupied id `0` and
inserting at fresh id `3`. -/
theorem insert_at_spec_witness :
    ((0 : ℕ) ∈ (insert (new ℕ) 4).1.ids ∧
        vget (insert_at (insert (new ℕ) 4).1 0 9).1.values 0 = some 9 ∧
        (insert_at (insert (new ℕ) 4).1 0 9).2 = some 4) ∧
      ((3 : ℕ) ∉ (insert (new ℕ) 4).1.ids ∧
        vget (insert_at (insert (new ℕ) 4).1 3 9).1.values 3 = some 9 ∧
        (insert_at (insert (new ℕ) 4).1 3 9).2 = none) :=
  ⟨⟨by decide,
      (((insert_at_spec (insert (new ℕ) 4).1 0 9).2.1 (by decide)).2.2.2.1 (by decide)),
      by decide⟩,
    ⟨by decide,
      ((insert_at_spec (insert (new ℕ) 4).1 3 9).2.2.1 (by decide)).2.1,
      by decide⟩⟩

/-- C9: indexed access on an unoccupied id is the one fatal condition and
carries a diagnostic naming the offending id, while `get`, `get_mut`,
`remove` and `insert_at` on an unoccupied id return an absence value with
no abnormal termination; on an occupied id with a stored value, indexing
succeeds. -/
theorem index_fatal_spec (m : IdMap ℕ) (id v : ℕ) :
    (id ∉ m.ids →
      index m id = Except.error (panicMsg id) ∧
      index_mut m id v = Except.error (panicMsg id) ∧
      get m id = none ∧
      get_mut m id = none ∧
      remove m id = (m, none) ∧
      (insert_at m id v).2 = none) ∧
    (∀ w, id ∈ m.ids → vget m.values id = some w →
      index m id = Except.ok w ∧
      index_mut m id v = Except.ok ⟨m.ids, m.values.set id (some v), m.space⟩) := by
  constructor
  · intro h
    exact ⟨by simp [index, h], by simp [index_mut, h], by simp [get, h],
      by simp [get_mut, h], by simp [remove, h], by simp [insert_at, h]⟩
  · intro w h hw
    exact ⟨by simp [index, h, hw], by simp [index_mut, h]⟩

/-- Witness for C9 on `{0 ↦ 4}` with absent id `3` and occupied id `0`. -/
theorem index_fatal_spec_witness :
    ((3 : ℕ) ∉ (insert (new ℕ) 4).1.ids ∧
        index (insert (new ℕ) 4).1 3 = Except.error (panicMsg 3) ∧
        panicMsg 3 = "id 3 out of bounds") ∧
      ((0 : ℕ) ∈ (insert (new ℕ) 4).1.ids ∧
        index (insert (new ℕ) 4).1 0 = Except.ok 4) :=
  ⟨⟨by decide, ((index_fatal_spec (insert (new ℕ) 4).1 3 0).1 (by decide)).1, rfl⟩,
    ⟨by decide,
      ((index_fatal_spec (insert (new ℕ) 4).1 0 0).2 4 (by decide) (by decide)).1⟩⟩

/-- C8: two containers are equal exactly when their occupancy sets are
equal and the stored values agree at every common identifier — identifier
correspondence, not storage-position correspondence. -/
theorem mapEq_iff (a b : IdMap ℕ) :
    mapEq a b = true ↔
      (a.ids = b.ids ∧ ∀ id ∈ a.ids, vget a.values id = vget b.values id) := by
  by_cases hids : a.ids = b.ids
  · rw [mapEq, Bool.and_eq_true, decide_eq_true_eq, ← hids, zip_self,
      List.all_eq_true]
    simp only [List.mem_map, forall_exists_index, and_imp]
    constructor
    · rintro ⟨-, hall⟩
      refine ⟨trivial, ?_⟩
      intro id hid
      have := hall (id, id) id (mem_sortIds.mpr hid) rfl
      exact eq_of_beq this
    · rintro ⟨-, hvals⟩
      refine ⟨trivial, ?_⟩
      rintro p x hx rfl
      exact beq_iff_eq.mpr (hvals x (mem_sortIds.mp hx))
  · rw [mapEq, Bool.and_eq_true, decide_eq_true_eq]
    constructor
    · rintro ⟨hc, -⟩
      exact absurd hc hids
    · rintro ⟨hc, -⟩
      exact absurd hc hids

/-- The bulk-removal scenario of spec §8: after inserting the values
`0..99` at ids `0..99` and removing the id set `{0..49}`, the remaining
values in id order are `[50, …, 99]` and `next_id()` is `0`. -/
theorem remove_set_scenario :
    valuesList (remove_set (insertAllTrace (new ℕ) (List.range 100)).1
        (Finset.range 50)) = List.range' 50 50 ∧
      next_id (remove_set (insertAllTrace (new ℕ) (List.range 100)).1
        (Finset.range 50)) = 0 := by
  decide

/-- C5: `remove_set` removes exactly the ids in the intersection of the
given set with the occupancy (their slots become empty, occupancy becomes
the set difference, all other slots are unchanged), and the cursor is
lowered to `min(space, m)` for `m` the minimum removed id exactly when the
intersection is nonempty; in particular the bulk-removal scenario holds. -/
theorem remove_set_spec (m : IdMap ℕ) (s : Finset ℕ) :
    (remove_set m s).ids = m.ids \ s ∧
    (∀ id ∈ m.ids ∩ s, vget (remove_set m s).values id = none) ∧
    (∀ id, id ∉ m.ids ∩ s → vget (remove_set m s).values id = vget m.values id) ∧
    (remove_set m s).space =
      (if h : (m.ids ∩ s).Nonempty then min m.space ((m.ids ∩ s).min' h)
       else m.space) ∧
    (valuesList (remove_set (insertAllTrace (new ℕ) (List.range 100)).1
        (Finset.range 50)) = List.range' 50 50 ∧
      next_id (remove_set (insertAllTrace (new ℕ) (List.range 100)).1
        (Finset.range 50)) = 0) := by
  rcases hsort : sortIds (m.ids ∩ s) with _ | ⟨first, rest⟩
  · have hempty : m.ids ∩ s = ∅ := sortIds_eq_nil hsort
    have hred : remove_set m s = ⟨m.ids \ s, m.values, m.space⟩ := by
      rw [remove_set, hsort]
    rw [hred]
    refine ⟨rfl, ?_, fun id _ => rfl, ?_, remove_set_scenario⟩
    · intro id hid
      rw [hempty] at hid
      exact absurd hid (Finset.not_mem_empty id)
    · rw [hempty]
      simp
  · obtain ⟨hne, hfirst⟩ := sortIds_head_min hsort
    have hred : remove_set m s = ⟨m.ids \ s,
        (first :: rest).foldl (fun vs id => vs.set id none) m.values,
        min m.space first⟩ := by
      rw [remove_set, hsort]
    rw [hred]
    refine ⟨rfl, ?_, ?_, ?_, remove_set_scenario⟩
    · intro id hid
      show vget ((first :: rest).foldl (fun vs id => vs.set id none) m.values) id
        = none
      rw [← hsort, vget_foldl_set_none, if_pos (mem_sortIds.mpr hid)]
    · intro id hid
      show vget ((first :: rest).foldl (fun vs id => vs.set id none) m.values) id
        = vget m.values id
      rw [← hsort, vget_foldl_set_none,
        if_neg (fun hc => hid (mem_sortIds.mp hc))]
    · show min m.space first = _
      rw [dif_pos hne, hfirst]

/-- Witness for C5 on `{0 ↦ 4, 1 ↦ 5, 2 ↦ 6}` with removal set `{1}`. -/
theorem remove_set_spec_witness :
    ((1 : ℕ) ∈ (insertAllTrace (new ℕ) [4, 5, 6]).1.ids ∩ ({1} : Finset ℕ)) ∧
      vget (remove_set (insertAllTrace (new ℕ) [4, 5, 6]).1 {1}).values 1
        = none :=
  ⟨by decide,
    (remove_set_spec (insertAllTrace (new ℕ) [4, 5, 6]).1 {1}).2.1 1 (by decide)⟩

/-- Witness for C8: `{0 ↦ 3}` built by `insert` equals `{0 ↦ 3}` built by
`insert_at`, and differs from `{0 ↦ 4}`. -/
theorem mapEq_iff_witness :
    mapEq (insert (new ℕ) 3).1 (insert_at (new ℕ) 0 3).1 = true ∧
      mapEq (insert (new ℕ) 3).1 (insert (new ℕ) 4).1 ≠ true :=
  ⟨(mapEq_iff (insert (new ℕ) 3).1 (insert_at (new ℕ) 0 3).1).mpr (by decide),
    fun hc => by
      have h := (mapEq_iff (insert (new ℕ) 3).1 (insert (new ℕ) 4).1).mp hc
      have h0 := h.2 0 (by decide)
      revert h0
      decide⟩

end IdMap

end IdMapVerif
